import Mathlib

/-!
Verification of PyOne's macro expansion engine (pyone.py).

The heart of the program is `make_script`, which rewrites a flat,
semicolon/brace-delimited pseudo-script into properly indented Python
source lines.  The scanner is the regular expression

    PAT = '[^\x22\x27\x7b\x7d;]*([\x7b\x7d;]|\x22(\\.|[^\x22])*\x22|\x27(\\.|[^\x27])*\x27)'

matched repeatedly from the current position; the builder keeps an
indentation counter, and a three trailing character test implements the
EL-loop macro.  We embed the scanner (`scanStr`, `matchPAT`), the
per-iteration body of the while loop (`msStep`), the loop itself
(`msLoopF` with an explicit iteration budget, wrapped by `msLoop` whose
budget, input length plus one, is proved sufficient below), and the
helpers `toint`, `add` (here `addLine`) and Python's `str.strip`
(here `pyStrip`).  All state of the Python loop is carried explicitly:
`done` is the already scanned prefix s[0:b] of the input, `pending` the
slice s[b:i] between the emit point and the scan position, `rest` the
unscanned tail s[i:], `indent` the depth counter and `lines` the output.
-/

namespace Pyone

/-- Whitespace characters stripped by Python's `str.strip()` (ASCII range). -/
def isPySpace (c : Char) : Bool :=
  c == ' ' || c == '\t' || c == '\n' || c == '\r' || c == '\x0b' || c == '\x0c'

/-- Python `str.strip()`: remove leading and trailing whitespace. -/
def pyStrip (l : List Char) : List Char :=
  ((l.dropWhile isPySpace).reverse.dropWhile isPySpace).reverse

/-- Body of an integer literal after the first digit: `(_? digit)*`,
underscores must sit between digits (Python 3 grammar of `int()`). -/
def digitsBody : List Char → Bool
  | [] => true
  | ['_'] => false
  | '_' :: d :: t => d.isDigit && digitsBody t
  | d :: t => d.isDigit && digitsBody t

/-- A non-empty all-digit body (with optional medial underscores). -/
def intBody : List Char → Bool
  | [] => false
  | d :: t => d.isDigit && digitsBody t

/-- Numeric value of a digit body, ignoring underscores. -/
def digitsToNat (l : List Char) : Nat :=
  l.foldl (fun a c => if c = '_' then a else a * 10 + (c.toNat - '0'.toNat)) 0

/-- Python's built-in `int(x)` on a string (ASCII model): optional
surrounding whitespace, optional sign, then a digit body.  Returns `none`
exactly when Python raises `ValueError`. -/
def pyInt (x : List Char) : Option Int :=
  let l := (((x.dropWhile isPySpace).reverse.dropWhile isPySpace).reverse)
  match l with
  | '+' :: t => if intBody t then some (digitsToNat t) else none
  | '-' :: t => if intBody t then some (-(digitsToNat t : Int)) else none
  | t => if intBody t then some (digitsToNat t) else none

/-- pyone.py lines 87-91: `toint(x, v=0)` returns `int(x)` and falls back
to `v` when the conversion raises `ValueError`. -/
def toint (x : List Char) (v : Int) : Int :=
  match pyInt x with
  | some n => n
  | none => v

/-- pyone.py line 82: the default field separator `DELIM`. -/
def DELIM : List Char := [' ']

/-- The quoted-literal part of `PAT`: given the quote character `q` and the
text after the opening quote, return how many characters the regex
`(\\.|[^q])*q` consumes (closing quote included), or `none` when the
literal is unterminated.  The alternation prefers the escape-pair branch
and backtracks to the single-character branch when the tail fails, exactly
as Python's backtracking engine does; `.` does not match a newline. -/
def scanStr (q : Char) : List Char → Option Nat
  | [] => none
  | [c] => if c = q then some 1 else none
  | c :: d :: t2 =>
    if c = q then some 1
    else if c = '\\' then
      if d = '\n' then (scanStr q (d :: t2)).map (· + 1)
      else
        match scanStr q t2 with
        | some n => some (n + 2)
        | none => (scanStr q (d :: t2)).map (· + 1)
    else (scanStr q (d :: t2)).map (· + 1)

/-- pyone.py lines 96-100: `PAT.match` at the head of `l`; returns the
length of the match.  The leading class `[^\x22\x27\x7b\x7d;]*` consumes
characters up to the first quote or delimiter; a delimiter ends the
match, a quote must open a well-formed literal for the match to succeed
(followed by nothing: the regex group is the last element of `PAT`, so a
literal ends the match as well). -/
def matchPAT : List Char → Option Nat
  | [] => none
  | c :: t =>
    if c = '\x7b' ∨ c = '\x7d' ∨ c = ';' then some 1
    else if c = '"' ∨ c = '\'' then
      match scanStr c t with
      | some n => some (1 + n)
      | none => none
    else
      match matchPAT t with
      | some n => some (1 + n)
      | none => none

/-- The loop-macro trigger compared against `s[e-3:e]` (pyone.py line 119). -/
def elTrig : List Char := ['E', 'L', '\x7b']

/-- pyone.py line 122: the synthesized iteration header. -/
def elHeader : List Char := "for (L,S) in enumerate(fileinput.input()):".data

/-- pyone.py line 124: first synthesized derivation line. -/
def elLine1 : List Char := "s = S.strip()".data

/-- pyone.py line 125: second synthesized derivation line. -/
def elLine2 : List Char := "F = s.split(DELIM)".data

/-- pyone.py line 126: third synthesized derivation line. -/
def elLine3 : List Char := "I = [ toint(v) for v in F ]".data

/-- pyone.py line 133: prefix of the `SyntaxError` message. -/
def invalidMsg : List Char := "Invalid Syntax: ".data

/-- pyone.py lines 107-111: `add(line)` strips the line and, when the
result is non-empty, appends it prefixed by four spaces per indent level. -/
def addLine (lines : List (List Char)) (indent : Int) (content : List Char) : List (List Char) :=
  let c := pyStrip content
  if c = [] then lines else lines ++ [List.replicate (4 * indent.toNat) ' ' ++ c]

/-- Result of one iteration of the while loop: either the loop finishes
with a value (normal return or the raised `SyntaxError`), or it continues
with updated state. -/
inductive StepRes where
  | halt : Except (List Char) (List (List Char) × Int) → StepRes
  | cont : List Char → List Char → List Char → Int → List (List Char) → StepRes

/-- pyone.py lines 113-139: one iteration of the while loop of
`make_script`.  `done ++ pending ++ rest` is the whole input `s`;
`done ++ pending` is `s[0:i]` and `done` is `s[0:b]`.  The Python test
`s[e-3:e] == 'EL\x7b'` reads the last three characters of `s[0:e]`, that
is of `done ++ pending ++ matched` (for `e < 3` Python's negative-index
slicing yields a slice of fewer than three characters, never equal to the
trigger, which the clamped `List.drop` reproduces).  In the close-brace
branch the Python code appends the output line and decrements before the
negativity check; since the raise abandons the line list, testing the
decrement first is observably identical. -/
def msStep (done pending rest : List Char) (indent : Int) (lines : List (List Char)) : StepRes :=
  if rest = [] then .halt (.ok (lines, indent))
  else
    match matchPAT rest with
    | none => .halt (.ok (addLine lines indent (pending ++ rest), indent))
    | some e =>
      if (done ++ (pending ++ rest.take e)).drop ((done ++ (pending ++ rest.take e)).length - 3) = elTrig then
        .cont (done ++ (pending ++ rest.take e)) [] (rest.drop e) (indent + 1)
          (addLine
            (addLine
              (addLine
                (addLine
                  (addLine lines indent
                    ((pending ++ rest.take e).take ((pending ++ rest.take e).length - 3)))
                  indent elHeader)
                (indent + 1) elLine1)
              (indent + 1) elLine2)
            (indent + 1) elLine3)
      else if (rest.take e).getLast? = some '\x7b' then
        .cont (done ++ (pending ++ rest.take e)) [] (rest.drop e) (indent + 1)
          (addLine lines indent
            ((pending ++ rest.take e).take ((pending ++ rest.take e).length - 1) ++ [':']))
      else if (rest.take e).getLast? = some '\x7d' then
        if indent - 1 < 0 then .halt (.error (invalidMsg ++ (pending ++ rest)))
        else
          .cont (done ++ (pending ++ rest.take e)) [] (rest.drop e) (indent - 1)
            (addLine lines indent
              ((pending ++ rest.take e).take ((pending ++ rest.take e).length - 1)))
      else if (rest.take e).getLast? = some ';' then
        .cont (done ++ (pending ++ rest.take e)) [] (rest.drop e) indent
          (addLine lines indent
            ((pending ++ rest.take e).take ((pending ++ rest.take e).length - 1)))
      else
        .cont done (pending ++ rest.take e) (rest.drop e) indent lines

/-- The while loop of `make_script`, with an explicit iteration budget.
Every regex match consumes at least one character, so a budget of
`rest.length + 1` always suffices (proved in `msLoopF_complete`). -/
def msLoopF : Nat → List Char → List Char → List Char → Int → List (List Char) →
    Option (Except (List Char) (List (List Char) × Int))
  | 0, _, _, _, _, _ => none
  | fuel + 1, done, pending, rest, indent, lines =>
    match msStep done pending rest indent lines with
    | .halt res => some res
    | .cont d p r i l => msLoopF fuel d p r i l

/-- The while loop of pyone.py lines 113-139 run to completion from a
given state.  The budget `rest.length + 1` is sufficient, so the default
value is never used (`msLoop_eq` below recovers the exact loop
recurrence). -/
def msLoop (done pending rest : List Char) (indent : Int) (lines : List (List Char)) :
    Except (List Char) (List (List Char) × Int) :=
  (msLoopF (rest.length + 1) done pending rest indent lines).getD (.ok ([], 0))

/-- pyone.py lines 101-140: `make_script(s)` returns the expanded lines,
or raises `SyntaxError` (modelled as `Except.error` carrying the message). -/
def make_script (s : String) : Except String (List String) :=
  match msLoop [] [] s.data 0 [] with
  | .error m => .error (String.mk m)
  | .ok (ls, _) => .ok (ls.map String.mk)

/-- Shape invariant of an emitted output line: a four-space indentation
unit repeated some number of times, followed by a non-empty string with no
leading or trailing whitespace. -/
def goodLine (x : List Char) : Prop :=
  ∃ k c, x = List.replicate (4 * k) ' ' ++ c ∧ c ≠ [] ∧ pyStrip c = c

/-! ### Basic properties of the scanner and of the loop machinery -/

theorem scanStr_le (q : Char) : ∀ (l : List Char) (n : Nat), scanStr q l = some n → n ≤ l.length := by
  have key : ∀ (N : Nat) (l : List Char), l.length ≤ N → ∀ n, scanStr q l = some n → n ≤ l.length := by
    intro N
    induction N with
    | zero =>
      intro l hl n h
      have : l = [] := by cases l <;> simp_all
      subst this
      simp [scanStr] at h
    | succ N ih =>
      intro l hl n h
      match l with
      | [] => simp [scanStr] at h
      | [c] =>
        unfold scanStr at h
        split at h <;> simp at h ⊢ <;> omega
      | c :: d :: t2 =>
        unfold scanStr at h
        split at h
        · simp at h ⊢; omega
        · split at h
          · split at h
            · cases hx : scanStr q (d :: t2) <;> rw [hx] at h <;> simp at h
              have := ih (d :: t2) (by simp at hl ⊢; omega) _ hx
              simp at this ⊢
              omega
            · split at h
              · rename_i m hx
                have := ih t2 (by simp at hl ⊢; omega) m hx
                simp at h ⊢
                omega
              · cases hx : scanStr q (d :: t2) <;> rw [hx] at h <;> simp at h
                have := ih (d :: t2) (by simp at hl ⊢; omega) _ hx
                simp at this ⊢
                omega
          · cases hx : scanStr q (d :: t2) <;> rw [hx] at h <;> simp at h
            have := ih (d :: t2) (by simp at hl ⊢; omega) _ hx
            simp at this ⊢
            omega
  exact fun l => key l.length l (le_refl _)

theorem matchPAT_pos : ∀ (l : List Char) (e : Nat), matchPAT l = some e → 1 ≤ e := by
  intro l e h
  match l with
  | [] => simp [matchPAT] at h
  | c :: t =>
    unfold matchPAT at h
    split at h
    · simp at h <;> omega
    · split at h
      · split at h <;> simp at h <;> omega
      · split at h <;> simp at h <;> omega

theorem matchPAT_le : ∀ (l : List Char) (e : Nat), matchPAT l = some e → e ≤ l.length := by
  intro l
  induction l with
  | nil => intro e h; simp [matchPAT] at h
  | cons c t ih =>
    intro e h
    unfold matchPAT at h
    split at h
    · simp at h; simp; omega
    · split at h
      · split at h
        · rename_i n hx
          have := scanStr_le c t n hx
          simp at h ⊢
          omega
        · simp at h
      · split at h
        · rename_i n hx
          have := ih n hx
          simp at h ⊢
          omega
        · simp at h

theorem msStep_cont_inv {done pending rest d' p' r' : List Char} {indent i' : Int}
    {lines l' : List (List Char)}
    (h : msStep done pending rest indent lines = .cont d' p' r' i' l') :
    r'.length < rest.length ∧ p' ++ r' <:+ pending ++ rest := by
  unfold msStep at h
  split at h
  · exact absurd h (by simp)
  · rename_i hne
    split at h
    · exact absurd h (by simp)
    · rename_i e he
      have hpos := matchPAT_pos rest e he
      have hlen : 0 < rest.length := List.length_pos.mpr hne
      split at h
      · cases h
        refine ⟨by simp; omega, ?_⟩
        simp only [List.nil_append]
        exact (List.drop_suffix e rest).trans (List.suffix_append pending rest)
      · split at h
        · cases h
          refine ⟨by simp; omega, ?_⟩
          simp only [List.nil_append]
          exact (List.drop_suffix e rest).trans (List.suffix_append pending rest)
        · split at h
          · split at h
            · exact absurd h (by simp)
            · cases h
              refine ⟨by simp; omega, ?_⟩
              simp only [List.nil_append]
              exact (List.drop_suffix e rest).trans (List.suffix_append pending rest)
          · split at h
            · cases h
              refine ⟨by simp; omega, ?_⟩
              simp only [List.nil_append]
              exact (List.drop_suffix e rest).trans (List.suffix_append pending rest)
            · cases h
              refine ⟨by simp; omega, ?_⟩
              rw [List.append_assoc, List.take_append_drop]

theorem msLoopF_fuel_irrel : ∀ (f₁ : Nat) (rest : List Char), rest.length < f₁ →
    ∀ (f₂ : Nat), rest.length < f₂ →
    ∀ (done pending : List Char) (indent : Int) (lines : List (List Char)),
    msLoopF f₁ done pending rest indent lines = msLoopF f₂ done pending rest indent lines := by
  intro f₁
  induction f₁ with
  | zero => intro rest h; omega
  | succ n ih =>
    intro rest hr f₂ hf₂ done pending indent lines
    obtain ⟨g, rfl⟩ : ∃ g, f₂ = g + 1 := ⟨f₂ - 1, by omega⟩
    simp only [msLoopF]
    cases hs : msStep done pending rest indent lines with
    | halt res => rfl
    | cont d' p' r' i' l' =>
      have hlt := (msStep_cont_inv hs).1
      exact ih r' (by omega) g (by omega) d' p' i' l'

theorem msLoopF_isSome : ∀ (fuel : Nat) (rest : List Char), rest.length < fuel →
    ∀ (done pending : List Char) (indent : Int) (lines : List (List Char)),
    ∃ res, msLoopF fuel done pending rest indent lines = some res := by
  intro fuel
  induction fuel with
  | zero => intro rest h; omega
  | succ n ih =>
    intro rest hr done pending indent lines
    simp only [msLoopF]
    cases hs : msStep done pending rest indent lines with
    | halt res => exact ⟨res, rfl⟩
    | cont d' p' r' i' l' =>
      have hlt := (msStep_cont_inv hs).1
      exact ih r' (by omega) d' p' i' l'

/-- The defining recurrence of the Python while loop: `msLoop` runs one
`msStep` and either halts or continues from the new state. -/
theorem msLoop_eq (done pending rest : List Char) (indent : Int) (lines : List (List Char)) :
    msLoop done pending rest indent lines =
      match msStep done pending rest indent lines with
      | .halt res => res
      | .cont d' p' r' i' l' => msLoop d' p' r' i' l' := by
  cases hs : msStep done pending rest indent lines with
  | halt res =>
    unfold msLoop
    simp [msLoopF, hs]
  | cont d' p' r' i' l' =>
    have hlt := (msStep_cont_inv hs).1
    show msLoop done pending rest indent lines = msLoop d' p' r' i' l'
    unfold msLoop
    conv_lhs => rw [msLoopF]
    rw [hs]
    show (msLoopF rest.length d' p' r' i' l').getD (Except.ok ([], 0)) = _
    rw [msLoopF_fuel_irrel rest.length r' (by omega) (r'.length + 1) (by omega)]

/-- A sufficient iteration budget: any budget exceeding the length of the
unscanned tail computes the loop's result. -/
theorem msLoopF_complete (fuel : Nat) (done pending rest : List Char) (indent : Int)
    (lines : List (List Char)) (h : rest.length < fuel) :
    msLoopF fuel done pending rest indent lines = some (msLoop done pending rest indent lines) := by
  obtain ⟨res, hres⟩ := msLoopF_isSome (rest.length + 1) rest (by omega) done pending indent lines
  rw [msLoopF_fuel_irrel fuel rest h (rest.length + 1) (by omega), hres]
  unfold msLoop
  rw [hres]
  rfl

/-! ### Properties of `addLine` and `pyStrip` -/

theorem addLine_of_eq (lines : List (List Char)) (indent : Int) (content : List Char)
    (h : pyStrip content = []) : addLine lines indent content = lines := by
  unfold addLine
  simp [h]

theorem addLine_of_ne (lines : List (List Char)) (indent : Int) (content : List Char)
    (h : pyStrip content ≠ []) :
    addLine lines indent content =
      lines ++ [List.replicate (4 * indent.toNat) ' ' ++ pyStrip content] := by
  unfold addLine
  simp [h]

theorem dropWhile_idem {α : Type} (p : α → Bool) (l : List α) :
    (l.dropWhile p).dropWhile p = l.dropWhile p := by
  induction l with
  | nil => rfl
  | cons c t ih =>
    by_cases h : p c
    · simp [List.dropWhile_cons, h, ih]
    · simp [List.dropWhile_cons, h]

theorem pyStrip_prefix (l : List Char) : pyStrip l <+: l.dropWhile isPySpace := by
  have h := List.reverse_prefix.mpr
    (List.dropWhile_suffix (l := (l.dropWhile isPySpace).reverse) isPySpace)
  unfold pyStrip
  simpa using h

theorem pyStrip_drop_eq (l : List Char) : (pyStrip l).dropWhile isPySpace = pyStrip l := by
  rcases hb : pyStrip l with _ | ⟨c, bs⟩
  · rfl
  · obtain ⟨t, ht⟩ := pyStrip_prefix l
    have hc : (l.dropWhile isPySpace).head? = some c := by
      rw [← ht, hb]
      simp
    have hnot := List.head?_dropWhile_not isPySpace l
    rw [hc] at hnot
    simp only at hnot
    exact List.dropWhile_cons_of_neg (by simp [hnot])

theorem pyStrip_idem (l : List Char) : pyStrip (pyStrip l) = pyStrip l := by
  have h1 : (pyStrip l).reverse.dropWhile isPySpace = (pyStrip l).reverse := by
    unfold pyStrip
    rw [List.reverse_reverse]
    exact dropWhile_idem _ _
  show (((pyStrip l).dropWhile isPySpace).reverse.dropWhile isPySpace).reverse = pyStrip l
  rw [pyStrip_drop_eq, h1, List.reverse_reverse]

/-! ### Characterisation of the error exit -/

theorem msStep_error_iff {done pending rest : List Char} {indent : Int}
    {lines : List (List Char)} {m : List Char} :
    msStep done pending rest indent lines = .halt (.error m) ↔
      ∃ e, matchPAT rest = some e ∧
        (done ++ (pending ++ rest.take e)).drop ((done ++ (pending ++ rest.take e)).length - 3) ≠ elTrig ∧
        (rest.take e).getLast? = some '\x7d' ∧
        indent - 1 < 0 ∧
        m = invalidMsg ++ (pending ++ rest) := by
  unfold msStep
  split
  · rename_i hr
    subst hr
    simp [matchPAT]
  · rename_i hr
    split
    · rename_i he
      simp [he]
    · rename_i e0 he
      split
      · rename_i htrig
        simp only [List.length_append, List.length_take] at htrig
        simp [he, htrig]
      · rename_i htrig
        split
        · rename_i hopen
          simp [he, hopen]
        · rename_i hopen
          split
          · rename_i hclose
            split
            · rename_i hneg
              simp only [List.length_append, List.length_take] at htrig
              simp [he, htrig, hclose, hneg]
              exact eq_comm
            · rename_i hneg
              simp [he, hneg]
          · rename_i hclose
            split
            · rename_i hsemi
              simp [he, hsemi]
            · rename_i hsemi
              simp [he, hclose]

theorem msLoop_error_shape : ∀ (N : Nat) (rest : List Char), rest.length ≤ N →
    ∀ (done pending : List Char) (indent : Int) (lines : List (List Char)) (m : List Char),
    msLoop done pending rest indent lines = .error m →
    ∃ t, m = invalidMsg ++ t ∧ t <:+ pending ++ rest := by
  intro N
  induction N with
  | zero =>
    intro rest hr done pending indent lines m h
    have hre : rest = [] := by cases rest <;> simp_all
    subst hre
    rw [msLoop_eq] at h
    simp [msStep] at h
  | succ N ih =>
    intro rest hr done pending indent lines m h
    rw [msLoop_eq] at h
    cases hs : msStep done pending rest indent lines with
    | halt res =>
      rw [hs] at h
      dsimp only at h
      cases res with
      | ok v => simp at h
      | error m' =>
        have hm : m' = m := by simpa using h
        subst hm
        obtain ⟨e, _, _, _, _, hmsg⟩ := msStep_error_iff.mp hs
        exact ⟨pending ++ rest, hmsg, List.suffix_refl _⟩
    | cont d' p' r' i' l' =>
      rw [hs] at h
      dsimp only at h
      obtain ⟨hlt, hsuf⟩ := msStep_cont_inv hs
      obtain ⟨t, hm, ht⟩ := ih r' (by omega) d' p' i' l' m h
      exact ⟨t, hm, ht.trans hsuf⟩

/-! ### The output-line shape invariant -/

theorem addLine_good {lines : List (List Char)} {indent : Int} (content : List Char)
    (h0 : 0 ≤ indent) (hl : ∀ x ∈ lines, goodLine x) :
    ∀ x ∈ addLine lines indent content, goodLine x := by
  intro x hx
  by_cases hc : pyStrip content = []
  · rw [addLine_of_eq _ _ _ hc] at hx
    exact hl x hx
  · rw [addLine_of_ne _ _ _ hc] at hx
    rcases List.mem_append.mp hx with h | h
    · exact hl x h
    · simp only [List.mem_singleton] at h
      subst h
      exact ⟨indent.toNat, pyStrip content, rfl, hc, pyStrip_idem content⟩

theorem msStep_good {done pending rest : List Char} {indent : Int} {lines : List (List Char)}
    (h0 : 0 ≤ indent) (hl : ∀ x ∈ lines, goodLine x) :
    (∀ res fi, msStep done pending rest indent lines = .halt (.ok (res, fi)) →
      ∀ x ∈ res, goodLine x) ∧
    (∀ d' p' r' i' l', msStep done pending rest indent lines = .cont d' p' r' i' l' →
      0 ≤ i' ∧ ∀ x ∈ l', goodLine x) := by
  constructor
  · intro res fi h
    unfold msStep at h
    split at h
    · simp only [StepRes.halt.injEq, Except.ok.injEq, Prod.mk.injEq] at h
      obtain ⟨hres, _⟩ := h
      subst hres
      exact hl
    · split at h
      · simp only [StepRes.halt.injEq, Except.ok.injEq, Prod.mk.injEq] at h
        obtain ⟨hres, _⟩ := h
        subst hres
        exact addLine_good _ h0 hl
      · split at h
        · simp at h
        · split at h
          · simp at h
          · split at h
            · split at h <;> simp at h
            · split at h <;> simp at h
  · intro d' p' r' i' l' h
    unfold msStep at h
    split at h
    · simp at h
    · split at h
      · simp at h
      · split at h
        · cases h
          refine ⟨by omega, ?_⟩
          exact addLine_good _ (by omega)
            (addLine_good _ (by omega)
              (addLine_good _ (by omega)
                (addLine_good _ h0 (addLine_good _ h0 hl))))
        · split at h
          · cases h
            exact ⟨by omega, addLine_good _ h0 hl⟩
          · split at h
            · split at h
              · simp at h
              · cases h
                rename_i hneg
                exact ⟨by omega, addLine_good _ h0 hl⟩
            · split at h
              · cases h
                exact ⟨h0, addLine_good _ h0 hl⟩
              · cases h
                exact ⟨h0, hl⟩

theorem msLoop_good : ∀ (N : Nat) (rest : List Char), rest.length ≤ N →
    ∀ (done pending : List Char) (indent : Int) (lines : List (List Char)),
    0 ≤ indent → (∀ x ∈ lines, goodLine x) →
    ∀ res fi, msLoop done pending rest indent lines = .ok (res, fi) →
    ∀ x ∈ res, goodLine x := by
  intro N
  induction N with
  | zero =>
    intro rest hr done pending indent lines h0 hl res fi h
    have hre : rest = [] := by cases rest <;> simp_all
    subst hre
    rw [msLoop_eq] at h
    simp only [msStep] at h
    simp at h
    obtain ⟨hres, _⟩ := h
    subst hres
    exact hl
  | succ N ih =>
    intro rest hr done pending indent lines h0 hl res fi h
    rw [msLoop_eq] at h
    cases hs : msStep done pending rest indent lines with
    | halt res0 =>
      rw [hs] at h
      dsimp only at h
      subst h
      exact (msStep_good h0 hl).1 res fi hs
    | cont d' p' r' i' l' =>
      rw [hs] at h
      dsimp only at h
      obtain ⟨hi, hl'⟩ := (msStep_good h0 hl).2 _ _ _ _ _ hs
      have hlt := (msStep_cont_inv hs).1
      exact ih r' (by omega) d' p' i' l' hi hl' res fi h

theorem pyStrip_elHeader : pyStrip elHeader = elHeader := rfl

theorem pyStrip_elLine1 : pyStrip elLine1 = elLine1 := rfl

theorem pyStrip_elLine2 : pyStrip elLine2 = elLine2 := rfl

theorem pyStrip_elLine3 : pyStrip elLine3 = elLine3 := rfl

theorem getLast_of_trig {l : List Char} (hd : l.drop (l.length - 3) = elTrig) :
    l.getLast? = some '\x7b' := by
  have hl : l = l.take (l.length - 3) ++ elTrig := by
    conv_lhs => rw [← List.take_append_drop (l.length - 3) l]
    rw [hd]
  rw [hl, List.getLast?_append]
  rfl

/-! ### The claims -/

/-- Claim C1: whenever the scanner match ends with the loop-macro trigger
string consisting of the two letters E, L and an opening brace outside
quotes, `make_script` emits, in order: the span preceding the trigger
minus the two trigger letters as a statement line at the current
(pre-increment) depth with no trailing colon; then the fixed
iteration-header line at that same depth; then, after incrementing the
depth by one, exactly three further fixed synthesized lines at the new
depth; and the helper `toint` maps any string to its integer value when
int-parsing succeeds and to the default 0 otherwise, never raising. -/
theorem pyone_c1 :
    (∀ (done pending rest : List Char) (indent : Int) (lines : List (List Char)) (e : Nat),
      matchPAT rest = some e →
      0 ≤ indent →
      (done ++ (pending ++ rest.take e)).drop ((done ++ (pending ++ rest.take e)).length - 3) = elTrig →
      pyStrip ((pending ++ rest.take e).take ((pending ++ rest.take e).length - 3)) ≠ [] →
      msLoop done pending rest indent lines =
        msLoop (done ++ (pending ++ rest.take e)) [] (rest.drop e) (indent + 1)
          (lines ++
            [List.replicate (4 * indent.toNat) ' ' ++
               pyStrip ((pending ++ rest.take e).take ((pending ++ rest.take e).length - 3)),
             List.replicate (4 * indent.toNat) ' ' ++ elHeader,
             List.replicate (4 * (indent.toNat + 1)) ' ' ++ elLine1,
             List.replicate (4 * (indent.toNat + 1)) ' ' ++ elLine2,
             List.replicate (4 * (indent.toNat + 1)) ' ' ++ elLine3])) ∧
    (∀ (x : List Char),
      (∀ n, pyInt x = some n → toint x 0 = n) ∧ (pyInt x = none → toint x 0 = 0)) := by
  constructor
  · intro done pending rest indent lines e hm h0 htrig hspan
    have hne : rest ≠ [] := by
      intro h
      subst h
      simp [matchPAT] at hm
    rw [msLoop_eq]
    unfold msStep
    rw [if_neg hne, hm]
    dsimp only
    rw [if_pos htrig]
    rw [addLine_of_ne _ _ _ hspan,
        addLine_of_ne _ _ elHeader (by decide),
        addLine_of_ne _ _ elLine1 (by decide),
        addLine_of_ne _ _ elLine2 (by decide),
        addLine_of_ne _ _ elLine3 (by decide)]
    have ht : (indent + 1).toNat = indent.toNat + 1 := by omega
    rw [ht, pyStrip_elHeader, pyStrip_elLine1, pyStrip_elLine2, pyStrip_elLine3]
    simp [List.append_assoc]
  · refine fun x => ⟨fun n h => ?_, fun h => ?_⟩ <;> simp [toint, h]

theorem pyone_c1_witness :
    msLoop [] [] ("xEL\x7bq\x7d".data) 0 [] =
      msLoop ("xEL\x7b".data) [] ("q\x7d".data) 1
        [['x'], elHeader,
         "    s = S.strip()".data,
         "    F = s.split(DELIM)".data,
         "    I = [ toint(v) for v in F ]".data] ∧
    toint ("12".data) 0 = 12 := by
  constructor
  · exact pyone_c1.1 [] [] ("xEL\x7bq\x7d".data) 0 [] 4 rfl (by omega) (by decide) (by decide)
  · exact (pyone_c1.2 ("12".data)).1 12 rfl

/-- Claim C2: `make_script` fails exactly when an unquoted closing brace
is processed while the depth counter is zero (so the decrement would make
it negative); the step-level characterisation below is an equivalence, so
no other state ever produces the error.  Every error carries the message
prefix followed by the offending trailing text, a suffix of the input.
Concretely, the input consisting of the letter A and a closing brace
fails with that error, while A-open-B-close succeeds with exactly the two
lines (A with the colon marker at depth 0 and B at depth 1, the closing
statement being emitted before the depth decrement) and final depth 0. -/
theorem pyone_c2 :
    (∀ (done pending rest : List Char) (indent : Int) (lines : List (List Char)) (m : List Char),
      msStep done pending rest indent lines = .halt (.error m) ↔
        ∃ e, matchPAT rest = some e ∧
          (done ++ (pending ++ rest.take e)).drop ((done ++ (pending ++ rest.take e)).length - 3) ≠ elTrig ∧
          (rest.take e).getLast? = some '\x7d' ∧
          indent - 1 < 0 ∧
          m = invalidMsg ++ (pending ++ rest)) ∧
    (∀ (s m : String), make_script s = .error m →
      ∃ t, m.data = invalidMsg ++ t ∧ t <:+ s.data) ∧
    make_script "A\x7d" = .error "Invalid Syntax: A\x7d" ∧
    msLoop [] [] ("A\x7bB\x7d".data) 0 [] = .ok (["A:".data, "    B".data], 0) := by
  refine ⟨fun done pending rest indent lines m => msStep_error_iff, fun s m h => ?_, rfl, rfl⟩
  unfold make_script at h
  cases hms : msLoop [] [] s.data 0 [] with
  | ok v =>
    obtain ⟨ls, fi⟩ := v
    rw [hms] at h
    simp at h
  | error m0 =>
    rw [hms] at h
    dsimp only at h
    have hm : String.mk m0 = m := by simpa using h
    obtain ⟨t, hm0, ht⟩ := msLoop_error_shape s.data.length s.data (le_refl _) [] [] 0 [] m0 hms
    subst hm
    exact ⟨t, hm0, by simpa using ht⟩

theorem pyone_c2_witness :
    msStep [] [] ("A\x7d".data) 0 [] = .halt (.error ("Invalid Syntax: A\x7d".data)) ∧
    (∃ t, ("Invalid Syntax: A\x7d").data = invalidMsg ++ t ∧ t <:+ ("A\x7d").data) := by
  constructor
  · exact (pyone_c2.1 [] [] ("A\x7d".data) 0 [] ("Invalid Syntax: A\x7d".data)).mpr
      ⟨2, rfl, by decide, rfl, by decide, rfl⟩
  · exact pyone_c2.2.1 "A\x7d" "Invalid Syntax: A\x7d" rfl

/-- Claim C3 counterexample: the claim says the nested input
A-open-B-open-C-close-D-close yields five output lines; in fact
`make_script` yields four. -/
theorem pyone_c3_cex :
    (make_script "A\x7bB\x7bC\x7dD\x7d").map List.length = Except.ok 4 ∧ (4 : Nat) ≠ 5 :=
  ⟨rfl, by decide⟩

/-- Claim C3 (amended): the input A-open-B-open-C-close-D-close yields
four output lines at depths 0, 1, 2, 1 respectively, namely the A colon
marker line, the B colon marker line, C and D, with final depth 0. -/
theorem pyone_c3 :
    msLoop [] [] ("A\x7bB\x7bC\x7dD\x7d".data) 0 [] =
      .ok (["A:".data, "    B:".data, "        C".data, "    D".data], 0) := rfl

/-- Claim C4 counterexample: the claim says the loop-macro input
P-open-EL-open-Q-close-close produces a block line, a header line, four
synthesized derivation lines at depth 2 and the statement Q, i.e. seven
lines in total; in fact `make_script` produces six (there are only three
derivation lines at depth 2). -/
theorem pyone_c4_cex :
    (make_script "P\x7bEL\x7bQ\x7d\x7d").map List.length = Except.ok 6 ∧ (6 : Nat) ≠ 7 :=
  ⟨rfl, by decide⟩

/-- Claim C4 (amended): the input P-open-EL-open-Q-close-close produces,
in order, a block-open line for P at depth 0 (depth becomes 1), the
iteration-header line at depth 1 (depth becomes 2), the three synthesized
derivation lines at depth 2, and the statement Q at depth 2, with the
final depth back at 0 after both closes. -/
theorem pyone_c4 :
    msLoop [] [] ("P\x7bEL\x7bQ\x7d\x7d".data) 0 [] =
      .ok (["P:".data,
            "    for (L,S) in enumerate(fileinput.input()):".data,
            "        s = S.strip()".data,
            "        F = s.split(DELIM)".data,
            "        I = [ toint(v) for v in F ]".data,
            "        Q".data], 0) := rfl

/-- Claim C5: the input print of a double-quoted literal containing a
semicolon and a brace pair is emitted unmodified as exactly one output
line at depth 0, with no splitting and no depth change. -/
theorem pyone_c5 :
    msLoop [] [] ("print(\"a;b\x7bc\x7dd\")".data) 0 [] =
      .ok (["print(\"a;b\x7bc\x7dd\")".data], 0) := rfl

/-- Claim C6 counterexample: the claim says a remainder with no further
unquoted delimiter is always stripped and appended as a final line; but
when the remainder ends exactly at the close of a well-formed quoted
literal the scanner match succeeds to end-of-input and the text is
dropped: the input x followed by a quoted ab produces no output at all
although its stripped text is non-empty. -/
theorem pyone_c6_cex :
    make_script "x\"ab\"" = Except.ok [] ∧ pyStrip ("x\"ab\"".data) ≠ [] :=
  ⟨rfl, by decide⟩

/-- Claim C6 (amended): when the scanner regex fails to match on the
unscanned tail (unterminated quoted literal at the scan point, or no
further delimiter and no quoted literal), the whole remainder is stripped
and, if non-empty, appended as the final output line at the current
depth, with no depth change and no error; when instead the match
succeeds and ends exactly at end-of-input with a quoted literal, the
pending remainder is dropped without being emitted. -/
theorem pyone_c6 :
    (∀ (done pending rest : List Char) (indent : Int) (lines : List (List Char)),
      rest ≠ [] → matchPAT rest = none →
      msLoop done pending rest indent lines =
        .ok (addLine lines indent (pending ++ rest), indent)) ∧
    (∀ (done pending rest : List Char) (indent : Int) (lines : List (List Char)) (e : Nat) (q : Char),
      matchPAT rest = some e → rest.drop e = [] → (rest.take e).getLast? = some q →
      (q = '"' ∨ q = '\'') →
      msLoop done pending rest indent lines = .ok (lines, indent)) := by
  constructor
  · intro done pending rest indent lines hne hm
    rw [msLoop_eq]
    unfold msStep
    rw [if_neg hne, hm]
  · intro done pending rest indent lines e q hm hdrop hlast hq
    have hne : rest ≠ [] := by
      intro h
      subst h
      simp [matchPAT] at hm
    have hq7b : q ≠ '\x7b' := by rcases hq with h | h <;> subst h <;> decide
    have hq7d : q ≠ '\x7d' := by rcases hq with h | h <;> subst h <;> decide
    have hqsemi : q ≠ ';' := by rcases hq with h | h <;> subst h <;> decide
    rw [msLoop_eq]
    unfold msStep
    rw [if_neg hne, hm]
    dsimp only
    rw [if_neg, if_neg, if_neg, if_neg]
    · rw [hdrop]
      dsimp only
      rw [msLoop_eq]
      simp [msStep]
    · rw [hlast]
      simp [hqsemi]
    · rw [hlast]
      simp [hq7d]
    · rw [hlast]
      simp [hq7b]
    · intro hd
      have := getLast_of_trig hd
      rw [List.getLast?_append, List.getLast?_append, hlast] at this
      simp at this
      exact hq7b this

theorem pyone_c6_witness :
    (msLoop [] [] ("ab".data) 0 [] = .ok (addLine [] 0 ([] ++ "ab".data), 0)) ∧
    (msLoop [] [] ("x\"ab\"".data) 0 [] = .ok ([], 0)) := by
  constructor
  · exact pyone_c6.1 [] [] ("ab".data) 0 [] (by decide) rfl
  · exact pyone_c6.2 [] [] ("x\"ab\"".data) 0 [] 5 '"' rfl rfl rfl (Or.inl rfl)

/-- Claim C7: a span whose content is empty or whitespace-only after
trimming produces no output line at all; in particular the input A, two
semicolons, B yields exactly the two lines A and B with no blank line
between them. -/
theorem pyone_c7 :
    (∀ (lines : List (List Char)) (indent : Int) (content : List Char),
      pyStrip content = [] → addLine lines indent content = lines) ∧
    make_script "A;;B" = .ok ["A", "B"] :=
  ⟨fun lines indent content h => addLine_of_eq lines indent content h, rfl⟩

theorem pyone_c7_witness : addLine [['x']] 2 [' ', '\t'] = [['x']] :=
  pyone_c7.1 [['x']] 2 [' ', '\t'] (by decide)

/-- Claim C8: `make_script` terminates on every input: every scanner
match consumes at least one character (and at most the tail's length), so
the single pass is bounded by the input length: an iteration budget
exceeding the length of the unscanned tail always computes the loop's
final value. -/
theorem pyone_c8 :
    (∀ (l : List Char) (e : Nat), matchPAT l = some e → 1 ≤ e ∧ e ≤ l.length) ∧
    (∀ (fuel : Nat) (done pending rest : List Char) (indent : Int) (lines : List (List Char)),
      rest.length < fuel →
      msLoopF fuel done pending rest indent lines =
        some (msLoop done pending rest indent lines)) :=
  ⟨fun l e h => ⟨matchPAT_pos l e h, matchPAT_le l e h⟩,
   fun fuel done pending rest indent lines h =>
     msLoopF_complete fuel done pending rest indent lines h⟩

theorem pyone_c8_witness :
    (1 ≤ 2 ∧ 2 ≤ ("A;".data).length) ∧
    msLoopF 3 [] [] ("A;".data) 0 [] = some (msLoop [] [] ("A;".data) 0 []) :=
  ⟨pyone_c8.1 ("A;".data) 2 rfl, pyone_c8.2 3 [] [] ("A;".data) 0 [] (by decide)⟩

/-- Claim C9: the indentation unit is exactly four spaces, and every line
returned by `make_script` is that unit repeated some number of times
(the depth current at emission time) followed by a non-empty string with
no leading or trailing whitespace. -/
theorem pyone_c9 : ∀ (s : List Char) (lines : List (List Char)) (d : Int),
    msLoop [] [] s 0 [] = .ok (lines, d) → ∀ x ∈ lines, goodLine x :=
  fun s lines d h =>
    msLoop_good s.length s (le_refl _) [] [] 0 [] (by omega) (by simp) lines d h

theorem pyone_c9_witness : goodLine ("    B".data) :=
  pyone_c9 ("A\x7bB\x7d".data) ["A:".data, "    B".data] 0 rfl ("    B".data) (by simp)

/-- Claim C10: the loop-macro trigger test looks only at the three
characters before the match end, so a statement ending in the letters E,
L before an unquoted opening brace triggers the macro even when they are
the suffix of a longer identifier: LEVEL-open-X-close emits LEV followed
by the synthesized iteration header, and no block-open line LEVEL-colon
appears. -/
theorem pyone_c10 :
    make_script "LEVEL\x7bX\x7d" =
      .ok ["LEV", "for (L,S) in enumerate(fileinput.input()):", "    s = S.strip()",
           "    F = s.split(DELIM)", "    I = [ toint(v) for v in F ]", "    X"] ∧
    "LEVEL:" ∉ ["LEV", "for (L,S) in enumerate(fileinput.input()):", "    s = S.strip()",
           "    F = s.split(DELIM)", "    I = [ toint(v) for v in F ]", "    X"] :=
  ⟨rfl, by decide⟩

end Pyone
